import Mathlib

/-!
Shallow embedding of `src/mine.py`: a proof-of-work mining demo with a
`Block` record, a `Blockchain` holding an append-only list of blocks, a
two-interval difficulty retarget, and a nonce-search mining loop.

Modelling choices:
* Timestamps (Python `time.time()` floats) are modelled as rationals `ℚ`;
  the timestamp observed at each loop iteration is an input stream
  `ts : Nat → ℚ` indexed by the nonce of the iteration.
* The SHA-256 hex digest is an external leaf dependency; it is modelled as
  an abstract oracle `HashFn` from the four stored block fields (in the
  order the source concatenates them: index, timestamp, nonce,
  previous_hash) to a hex string, itself modelled as `List Char`.
* The unbounded `while True` search loop is modelled with explicit fuel;
  a successful `mine()` call is one that returns `some` result, and the
  fuelled loop tries nonces 0, 1, 2, … exactly as the source does.
-/

namespace MineDemo

/-- Oracle for the SHA-256 hex digest of the concatenation
`str(index) + str(timestamp) + str(nonce) + str(previous_hash)`. -/
def HashFn : Type := Nat → ℚ → Nat → List Char → List Char

/-- Python class `Block`: the four stored fields, captured once at
construction and never mutated. -/
structure Block where
  index : Nat
  nonce : Nat
  previousHash : List Char
  timestamp : ℚ
deriving DecidableEq

instance : Inhabited Block := ⟨⟨0, 0, [], 0⟩⟩

/-- Python `Block.hash`: digest of the four stored fields in source order
index, timestamp, nonce, previous_hash. -/
def Block.hash (H : HashFn) (b : Block) : List Char :=
  H b.index b.timestamp b.nonce b.previousHash

/-- Python `len(s) - len(s.lstrip("0"))`: the count of leading zero
characters of a string. -/
def countLeadingZeros (l : List Char) : Nat :=
  l.length - (l.dropWhile (fun c => c == '0')).length

/-- Python `Block.difficulty`: number of leading zeros in the hash. -/
def Block.difficulty (H : HashFn) (b : Block) : Nat :=
  countLeadingZeros (b.hash H)

/-- Python class `Blockchain`: the private `__chain` list plus the
configured target. -/
structure Blockchain where
  chain : List Block
  target_seconds_per_block : ℚ
deriving DecidableEq

/-- Python `Blockchain.__init__`: `self.__chain = [Block(0, 0, 0)]`.
The genesis `previous_hash` is the integer `0`, which the hash consumes
as `str(0) = "0"`; `t0` is the construction-time timestamp. -/
def Blockchain.init (t0 : ℚ) (target : ℚ) : Blockchain :=
  ⟨[⟨0, 0, ['0'], t0⟩], target⟩

/-- Python `Blockchain.last_block`: `self.__chain[-1]`. -/
def Blockchain.last_block (bc : Blockchain) : Block :=
  bc.chain.getD (bc.chain.length - 1) default

/-- Python local `avg_time_to_mine` in `Blockchain.difficulty`:
`((chain[-1].timestamp - chain[-2].timestamp) + (chain[-2].timestamp -
chain[-3].timestamp)) / 2`. -/
def Blockchain.avg_time_to_mine (bc : Blockchain) : ℚ :=
  ((bc.last_block.timestamp
      - (bc.chain.getD (bc.chain.length - 2) default).timestamp)
    + ((bc.chain.getD (bc.chain.length - 2) default).timestamp
      - (bc.chain.getD (bc.chain.length - 3) default).timestamp)) / 2

/-- Python `Blockchain.difficulty`: required difficulty of the next
block. Returns `Int` because the slow branch subtracts 1 with no floor. -/
def Blockchain.difficulty (H : HashFn) (bc : Blockchain) : Int :=
  if bc.chain.length < 3 then 1
  else if bc.avg_time_to_mine < bc.target_seconds_per_block * (0.5 : ℚ) then
    (bc.last_block.difficulty H : Int) + 1
  else if bc.avg_time_to_mine > bc.target_seconds_per_block * (1.5 : ℚ) then
    (bc.last_block.difficulty H : Int) - 1
  else
    (bc.last_block.difficulty H : Int)

/-- Python `'0' * d`: a run of `d` zero characters, empty when `d ≤ 0`. -/
def zerosOf (d : Int) : List Char :=
  List.replicate d.toNat '0'

/-- The candidate block built at one iteration of the mining loop:
`Block(index=len(chain), nonce=nonce, previous_hash=last_block.hash)`
with the fresh timestamp `ts nonce` of that iteration. -/
def candidateBlock (H : HashFn) (bc : Blockchain) (ts : Nat → ℚ)
    (nonce : Nat) : Block :=
  ⟨bc.chain.length, nonce, bc.last_block.hash H, ts nonce⟩

/-- Appending the winning block: `self.__chain.append(proposed_block)`. -/
def Blockchain.appendBlock (bc : Blockchain) (b : Block) : Blockchain :=
  ⟨bc.chain ++ [b], bc.target_seconds_per_block⟩

/-- The `while True` body of `Blockchain.mine`, with explicit fuel.
`calls` counts the `live_.update` progress-callback invocations made so
far; each iteration invokes the callback once and then tests the
candidate hash against the required run of zeros. On success it returns
the winning block together with the total callback count. -/
def mineLoop (H : HashFn) (bc : Blockchain) (ts : Nat → ℚ) (d : Int) :
    Nat → Nat → Nat → Option (Block × Nat)
  | _, _, 0 => none
  | nonce, calls, fuel + 1 =>
    if (zerosOf d).isPrefixOf ((candidateBlock H bc ts nonce).hash H) then
      some (candidateBlock H bc ts nonce, calls + 1)
    else mineLoop H bc ts d (nonce + 1) (calls + 1) fuel

/-- Python `Blockchain.mine`: computes the required difficulty once at
the start of the round, searches nonces 0, 1, 2, …, and on success
appends the winning block and returns its hash (plus, in the model, the
number of progress-callback invocations). `none` means the fuel ran out
before a hash matched, i.e. this execution is not one of the terminating
(successful) calls. -/
def Blockchain.mine (H : HashFn) (bc : Blockchain) (ts : Nat → ℚ)
    (fuel : Nat) : Option (Blockchain × List Char × Nat) :=
  match mineLoop H bc ts (bc.difficulty H) 0 0 fuel with
  | none => none
  | some (b, calls) => some (bc.appendBlock b, b.hash H, calls)

/-- Reachable chain states: a fresh construction (any construction time
and target) followed by any sequence of successful `mine()` calls. -/
inductive Reachable (H : HashFn) : Blockchain → Prop where
  | genesis (t0 target : ℚ) : Reachable H (Blockchain.init t0 target)
  | mineStep (bc : Blockchain) (ts : Nat → ℚ) (fuel : Nat)
      (bc' : Blockchain) (hsh : List Char) (calls : Nat) :
      Reachable H bc → bc.mine H ts fuel = some (bc', hsh, calls) →
      Reachable H bc'

/-! ### Helper lemmas -/

theorem countLeadingZeros_eq_takeWhile (l : List Char) :
    countLeadingZeros l = (l.takeWhile (fun c => c == '0')).length := by
  have h := congrArg List.length
    (List.takeWhile_append_dropWhile (fun c => c == '0') l)
  rw [List.length_append] at h
  unfold countLeadingZeros
  omega

theorem le_length_takeWhile_zeros (k : Nat) (l : List Char)
    (h : (List.replicate k '0').isPrefixOf l = true) :
    k ≤ (l.takeWhile (fun c => c == '0')).length := by
  induction k generalizing l with
  | zero => exact Nat.zero_le _
  | succ k ih =>
    cases l with
    | nil => simp [List.replicate_succ] at h
    | cons c l' =>
      rw [List.replicate_succ, List.isPrefixOf_cons₂, Bool.and_eq_true] at h
      obtain ⟨hc, h'⟩ := h
      have hc' : c = '0' := by
        have := beq_iff_eq.mp hc
        exact this.symm
      subst hc'
      rw [List.takeWhile_cons]
      simp only [beq_self_eq_true, if_true, List.length_cons]
      exact Nat.succ_le_succ (ih l' h')

theorem le_countLeadingZeros (k : Nat) (l : List Char)
    (h : (List.replicate k '0').isPrefixOf l = true) :
    k ≤ countLeadingZeros l := by
  rw [countLeadingZeros_eq_takeWhile]
  exact le_length_takeWhile_zeros k l h

theorem zerosOf_of_nonpos (d : Int) (hd : d ≤ 0) : zerosOf d = [] := by
  unfold zerosOf
  rw [Int.toNat_of_nonpos hd]
  rfl

theorem length_zerosOf (d : Int) : (zerosOf d).length = d.toNat := by
  unfold zerosOf
  exact List.length_replicate _ _

theorem last_block_appendBlock (bc : Blockchain) (b : Block) :
    (bc.appendBlock b).last_block = b := by
  unfold Blockchain.appendBlock Blockchain.last_block
  simp only [List.length_append, List.length_cons, List.length_nil,
    Nat.add_sub_cancel]
  rw [List.getD_append_right _ _ _ _ (le_refl _)]
  simp

theorem mineLoop_eq_some (H : HashFn) (bc : Blockchain) (ts : Nat → ℚ)
    (d : Int) (fuel : Nat) :
    ∀ nonce calls b k,
      mineLoop H bc ts d nonce calls fuel = some (b, k) →
      ∃ n, nonce ≤ n ∧ b = candidateBlock H bc ts n ∧
        (zerosOf d).isPrefixOf (b.hash H) = true ∧
        k = calls + (n - nonce) + 1 := by
  induction fuel with
  | zero =>
    intro nonce calls b k h
    simp [mineLoop] at h
  | succ fuel ih =>
    intro nonce calls b k h
    rw [mineLoop] at h
    split at h
    · rename_i hp
      simp only [Option.some.injEq, Prod.mk.injEq] at h
      obtain ⟨hb, hk⟩ := h
      refine ⟨nonce, le_refl _, hb.symm, ?_, by omega⟩
      rw [← hb]
      exact hp
    · obtain ⟨n, hn, hb, hp, hk⟩ := ih (nonce + 1) (calls + 1) b k h
      exact ⟨n, by omega, hb, hp, by omega⟩

theorem mine_eq_some (H : HashFn) (bc : Blockchain) (ts : Nat → ℚ)
    (fuel : Nat) (bc' : Blockchain) (hsh : List Char) (calls : Nat)
    (h : bc.mine H ts fuel = some (bc', hsh, calls)) :
    ∃ n, bc' = bc.appendBlock (candidateBlock H bc ts n) ∧
      hsh = (candidateBlock H bc ts n).hash H ∧
      (zerosOf (bc.difficulty H)).isPrefixOf hsh = true ∧
      calls = n + 1 := by
  unfold Blockchain.mine at h
  cases hml : mineLoop H bc ts (bc.difficulty H) 0 0 fuel with
  | none => rw [hml] at h; exact absurd h (by simp)
  | some bk =>
    obtain ⟨b, k⟩ := bk
    rw [hml] at h
    simp only [Option.some.injEq, Prod.mk.injEq] at h
    obtain ⟨hbc, hhsh, hcalls⟩ := h
    obtain ⟨n, _, hb, hp, hk⟩ :=
      mineLoop_eq_some H bc ts (bc.difficulty H) fuel 0 0 b k hml
    refine ⟨n, ?_, ?_, ?_, ?_⟩
    · rw [← hbc, hb]
    · rw [← hhsh, hb]
    · rw [← hhsh]; exact hp
    · omega

theorem mine_of_nonpos (H : HashFn) (bc : Blockchain) (ts : Nat → ℚ)
    (fuel : Nat) (hd : bc.difficulty H ≤ 0) (hf : 1 ≤ fuel) :
    bc.mine H ts fuel =
      some (bc.appendBlock (candidateBlock H bc ts 0),
            (candidateBlock H bc ts 0).hash H, 1) := by
  obtain ⟨f, rfl⟩ : ∃ f, fuel = f + 1 := ⟨fuel - 1, by omega⟩
  unfold Blockchain.mine
  rw [mineLoop]
  rw [zerosOf_of_nonpos _ hd]
  simp [List.isPrefixOf_nil_left]

/-! ### Concrete witness material

A concrete hash oracle and timestamp streams used to instantiate the
theorems below on explicit inputs. `Hc` gives blocks of index 1 and 2 a
digest with exactly one leading zero and every other block a digest with
none, which makes the whole mining trace below deterministic. -/

def Hc : HashFn := fun i _ _ _ => if i = 1 ∨ i = 2 then ['0'] else ['a']

def ts1 : Nat → ℚ := fun _ => 100
def ts2 : Nat → ℚ := fun _ => 200
def ts3 : Nat → ℚ := fun _ => 300
def ts4 : Nat → ℚ := fun _ => 400

def st0 : Blockchain := Blockchain.init 0 10
def st1 : Blockchain := ⟨[⟨0, 0, ['0'], 0⟩, ⟨1, 0, ['a'], 100⟩], 10⟩
def st2 : Blockchain :=
  ⟨[⟨0, 0, ['0'], 0⟩, ⟨1, 0, ['a'], 100⟩, ⟨2, 0, ['0'], 200⟩], 10⟩
def st3 : Blockchain :=
  ⟨[⟨0, 0, ['0'], 0⟩, ⟨1, 0, ['a'], 100⟩, ⟨2, 0, ['0'], 200⟩,
    ⟨3, 0, ['0'], 300⟩], 10⟩

theorem st0_mine : st0.mine Hc ts1 1 = some (st1, ['0'], 1) := by
  norm_num [Blockchain.mine, mineLoop, Blockchain.difficulty,
    Blockchain.avg_time_to_mine, Blockchain.last_block, Block.difficulty,
    Block.hash, countLeadingZeros, candidateBlock, Blockchain.appendBlock,
    zerosOf, st0, st1, Hc, ts1, Blockchain.init, List.isPrefixOf]

theorem st1_mine : st1.mine Hc ts2 1 = some (st2, ['0'], 1) := by
  norm_num [Blockchain.mine, mineLoop, Blockchain.difficulty,
    Blockchain.avg_time_to_mine, Blockchain.last_block, Block.difficulty,
    Block.hash, countLeadingZeros, candidateBlock, Blockchain.appendBlock,
    zerosOf, st1, st2, Hc, ts2, List.isPrefixOf]

theorem st2_mine : st2.mine Hc ts3 1 = some (st3, ['a'], 1) := by
  norm_num [Blockchain.mine, mineLoop, Blockchain.difficulty,
    Blockchain.avg_time_to_mine, Blockchain.last_block, Block.difficulty,
    Block.hash, countLeadingZeros, candidateBlock, Blockchain.appendBlock,
    zerosOf, st2, st3, Hc, ts3, List.isPrefixOf]

theorem st2_difficulty : st2.difficulty Hc = 0 := by
  norm_num [Blockchain.difficulty, Blockchain.avg_time_to_mine,
    Blockchain.last_block, Block.difficulty, Block.hash, countLeadingZeros,
    st2, Hc, List.dropWhile]

theorem st3_difficulty : st3.difficulty Hc = -1 := by
  norm_num [Blockchain.difficulty, Blockchain.avg_time_to_mine,
    Blockchain.last_block, Block.difficulty, Block.hash, countLeadingZeros,
    st3, Hc, List.dropWhile, show ('a' == '0') = false from rfl]

theorem st3_reachable : Reachable Hc st3 :=
  Reachable.mineStep st2 ts3 1 st3 ['a'] 1
    (Reachable.mineStep st1 ts2 1 st2 ['0'] 1
      (Reachable.mineStep st0 ts1 1 st1 ['0'] 1
        (Reachable.genesis 0 10) st0_mine)
      st1_mine)
    st2_mine

/-! ### Claims -/

/-- C5: `required_difficulty()` returns exactly 1 whenever fewer than 3
blocks are committed, regardless of the `target_seconds_per_block`
configuration value. -/
theorem C5_difficulty_bootstrap (H : HashFn) (bc : Blockchain)
    (h : bc.chain.length < 3) : bc.difficulty H = 1 := by
  unfold Blockchain.difficulty
  rw [if_pos h]

theorem C5_witness :
    (Blockchain.init 0 10).chain.length < 3 ∧
    (Blockchain.init 0 10).difficulty Hc = 1 :=
  ⟨by simp [Blockchain.init],
   C5_difficulty_bootstrap Hc (Blockchain.init 0 10) (by simp [Blockchain.init])⟩

/-- C7: `Block.hash()` is a pure, deterministic function of the four
stored fields (index, timestamp, nonce, previous_hash): any two blocks
agreeing on all four stored fields have identical hash strings, so two
evaluations on the same never-mutated block yield the same string. -/
theorem C7_hash_deterministic (H : HashFn) (b1 b2 : Block)
    (hi : b1.index = b2.index) (ht : b1.timestamp = b2.timestamp)
    (hn : b1.nonce = b2.nonce) (hp : b1.previousHash = b2.previousHash) :
    b1.hash H = b2.hash H := by
  unfold Block.hash
  rw [hi, ht, hn, hp]

theorem C7_witness :
    (⟨1, 2, ['a'], 3⟩ : Block).hash Hc = (⟨1, 2, ['a'], 3⟩ : Block).hash Hc :=
  C7_hash_deterministic Hc ⟨1, 2, ['a'], 3⟩ ⟨1, 2, ['a'], 3⟩ rfl rfl rfl rfl

/-- C2: for a chain with at least 3 committed blocks, with t1, t2, t3 the
timestamps of the last, second-last and third-last blocks and
avg = ((t1 - t2) + (t2 - t3)) / 2, the required difficulty is the last
block's leading-zero count +1 / -1 / unchanged according to whether avg
is below 0.5×target / above 1.5×target / in between. The positivity of
`target_seconds_per_block` is the spec's data-model invariant (a "fixed
positive number set at construction"); it makes the three guards mutually
exclusive, matching the ordered if/elif/else of the source. -/
theorem C2_retarget_rule (H : HashFn) (bc : Blockchain)
    (h3 : 3 ≤ bc.chain.length) (htar : 0 < bc.target_seconds_per_block) :
    (((bc.last_block.timestamp
          - (bc.chain.getD (bc.chain.length - 2) default).timestamp)
        + ((bc.chain.getD (bc.chain.length - 2) default).timestamp
          - (bc.chain.getD (bc.chain.length - 3) default).timestamp)) / 2
        < (0.5 : ℚ) * bc.target_seconds_per_block →
      bc.difficulty H = (bc.last_block.difficulty H : Int) + 1) ∧
    (((bc.last_block.timestamp
          - (bc.chain.getD (bc.chain.length - 2) default).timestamp)
        + ((bc.chain.getD (bc.chain.length - 2) default).timestamp
          - (bc.chain.getD (bc.chain.length - 3) default).timestamp)) / 2
        > (1.5 : ℚ) * bc.target_seconds_per_block →
      bc.difficulty H = (bc.last_block.difficulty H : Int) - 1) ∧
    ((¬ ((bc.last_block.timestamp
          - (bc.chain.getD (bc.chain.length - 2) default).timestamp)
        + ((bc.chain.getD (bc.chain.length - 2) default).timestamp
          - (bc.chain.getD (bc.chain.length - 3) default).timestamp)) / 2
        < (0.5 : ℚ) * bc.target_seconds_per_block) →
     (¬ ((bc.last_block.timestamp
          - (bc.chain.getD (bc.chain.length - 2) default).timestamp)
        + ((bc.chain.getD (bc.chain.length - 2) default).timestamp
          - (bc.chain.getD (bc.chain.length - 3) default).timestamp)) / 2
        > (1.5 : ℚ) * bc.target_seconds_per_block) →
      bc.difficulty H = (bc.last_block.difficulty H : Int)) := by
  have havg :
      ((bc.last_block.timestamp
          - (bc.chain.getD (bc.chain.length - 2) default).timestamp)
        + ((bc.chain.getD (bc.chain.length - 2) default).timestamp
          - (bc.chain.getD (bc.chain.length - 3) default).timestamp)) / 2
      = bc.avg_time_to_mine := rfl
  rw [havg]
  unfold Blockchain.difficulty
  rw [if_neg (by omega)]
  refine ⟨?_, ?_, ?_⟩
  · intro h
    rw [if_pos (by rw [mul_comm] at h; exact h)]
  · intro h
    have hnot : ¬ bc.avg_time_to_mine < bc.target_seconds_per_block * (0.5 : ℚ) := by
      rw [gt_iff_lt] at h
      intro hcon
      nlinarith
    rw [if_neg hnot, if_pos (by rw [mul_comm] at h; exact h)]
  · intro h1 h2
    rw [if_neg (by rw [mul_comm] at h1; exact h1),
        if_neg (by rw [mul_comm] at h2; exact h2)]

theorem C2_witness :
    st3.difficulty Hc = (st3.last_block.difficulty Hc : Int) - 1 := by
  have h := (C2_retarget_rule Hc st3 (by norm_num [st3]) (by norm_num [st3])).2.1
  refine h ?_
  norm_num [st3, Blockchain.last_block]

/-- C8: for a chain of three committed blocks with timestamps 0, 1 and 20
and `target_seconds_per_block = 10`, the required difficulty equals the
last block's leading-zero count (the hold-steady branch is taken, since
the average gap 9.5... is computed as ((20-1)+(1-0))/2 = 10, inside
[5, 15]). -/
theorem C8_hold_steady (H : HashFn) (bc : Blockchain)
    (hlen : bc.chain.length = 3)
    (ht3 : (bc.chain.getD 0 default).timestamp = 0)
    (ht2 : (bc.chain.getD 1 default).timestamp = 1)
    (ht1 : (bc.chain.getD 2 default).timestamp = 20)
    (htar : bc.target_seconds_per_block = 10) :
    bc.difficulty H = (bc.last_block.difficulty H : Int) := by
  have havg : bc.avg_time_to_mine = 10 := by
    unfold Blockchain.avg_time_to_mine Blockchain.last_block
    rw [hlen]
    simp only [show (3 : Nat) - 1 = 2 from rfl, show (3 : Nat) - 2 = 1 from rfl,
      show (3 : Nat) - 3 = 0 from rfl]
    rw [ht1, ht2, ht3]
    norm_num
  unfold Blockchain.difficulty
  rw [if_neg (by omega), havg, htar]
  rw [if_neg (by norm_num), if_neg (by norm_num)]

theorem C8_witness :
    (⟨[⟨0, 0, ['0'], 0⟩, ⟨1, 0, ['a'], 1⟩, ⟨2, 0, ['a'], 20⟩], 10⟩
        : Blockchain).difficulty Hc
      = ((⟨[⟨0, 0, ['0'], 0⟩, ⟨1, 0, ['a'], 1⟩, ⟨2, 0, ['a'], 20⟩], 10⟩
        : Blockchain).last_block.difficulty Hc : Int) :=
  C8_hold_steady Hc _ rfl rfl rfl rfl rfl

/-- C1 (counterexample): the claim "required_difficulty() ≥ 0 on every
reachable state" fails: the state `st3` — genesis followed by three
successful `mine()` calls under the oracle `Hc` and slow timing — is
reachable and its required difficulty is -1, because the slow branch
subtracts 1 from a last block whose hash has no leading zero. -/
theorem C1_counterexample : Reachable Hc st3 ∧ ¬ (0 ≤ st3.difficulty Hc) := by
  refine ⟨st3_reachable, ?_⟩
  rw [st3_difficulty]
  norm_num

/-- C1 (amended): for every reachable chain state, `required_difficulty()`
returns an integer ≥ -1 (the bootstrap value is 1, and otherwise the
result is the last block's leading-zero count — a natural number — plus
1, minus 1, or unchanged). -/
theorem C1_difficulty_ge_neg_one (H : HashFn) (bc : Blockchain)
    (h : Reachable H bc) : -1 ≤ bc.difficulty H := by
  unfold Blockchain.difficulty
  split
  · norm_num
  · split
    · omega
    · split
      · omega
      · omega

theorem C1_witness : -1 ≤ (Blockchain.init 0 10).difficulty Hc :=
  C1_difficulty_ge_neg_one Hc (Blockchain.init 0 10) (Reachable.genesis 0 10)

/-- C3: the block appended by a successful `mine()` call, whose hash the
call returns, always has a leading-zero count at least the length of the
zero run computed from `required_difficulty()` at the start of that
round. -/
theorem C3_mined_block_meets_required (H : HashFn) (bc : Blockchain)
    (ts : Nat → ℚ) (fuel : Nat) (bc' : Blockchain) (hsh : List Char)
    (calls : Nat) (h : bc.mine H ts fuel = some (bc', hsh, calls)) :
    hsh = bc'.last_block.hash H ∧
    (zerosOf (bc.difficulty H)).length ≤
      countLeadingZeros (bc'.last_block.hash H) := by
  obtain ⟨n, hbc, hhsh, hp, _⟩ := mine_eq_some H bc ts fuel bc' hsh calls h
  subst hbc
  rw [last_block_appendBlock]
  refine ⟨hhsh, ?_⟩
  rw [length_zerosOf]
  apply le_countLeadingZeros
  rw [← hhsh]
  exact hp

theorem C3_witness :
    ['0'] = st1.last_block.hash Hc ∧
    (zerosOf (st0.difficulty Hc)).length ≤
      countLeadingZeros (st1.last_block.hash Hc) :=
  C3_mined_block_meets_required Hc st0 ts1 1 st1 ['0'] 1 st0_mine

/-- C6: when the required difficulty is 0 at the start of a `mine()`
round, the loop commits on its very first iteration: the call invokes the
progress callback exactly once and appends exactly the nonce-0 candidate
(so the appended block has nonce 0), for every fuel bound ≥ 1. -/
theorem C6_zero_difficulty_fast_path (H : HashFn) (bc : Blockchain)
    (ts : Nat → ℚ) (fuel : Nat) (hd : bc.difficulty H = 0) (hf : 1 ≤ fuel) :
    bc.mine H ts fuel =
      some (bc.appendBlock (candidateBlock H bc ts 0),
            (candidateBlock H bc ts 0).hash H, 1) ∧
    (candidateBlock H bc ts 0).nonce = 0 :=
  ⟨mine_of_nonpos H bc ts fuel (by omega) hf, rfl⟩

theorem C6_witness :
    st2.mine Hc ts3 1 =
      some (st2.appendBlock (candidateBlock Hc st2 ts3 0),
            (candidateBlock Hc st2 ts3 0).hash Hc, 1) :=
  (C6_zero_difficulty_fast_path Hc st2 ts3 1 st2_difficulty (le_refl 1)).1

/-- C9: whenever the required difficulty is ≤ 0 (including the negative
values reachable via the minus-one retarget branch), `mine()` does not
fail: the zero run built from the difficulty is the empty string, which
every hash starts with, so the very first candidate (nonce 0) is
committed after exactly one callback invocation — a negative required
difficulty behaves exactly like difficulty 0. -/
theorem C9_nonpositive_difficulty_safe (H : HashFn) (bc : Blockchain)
    (ts : Nat → ℚ) (fuel : Nat) (hd : bc.difficulty H ≤ 0) (hf : 1 ≤ fuel) :
    zerosOf (bc.difficulty H) = [] ∧
    bc.mine H ts fuel =
      some (bc.appendBlock (candidateBlock H bc ts 0),
            (candidateBlock H bc ts 0).hash H, 1) ∧
    (candidateBlock H bc ts 0).nonce = 0 :=
  ⟨zerosOf_of_nonpos _ hd, mine_of_nonpos H bc ts fuel hd hf, rfl⟩

theorem C9_witness :
    zerosOf (st3.difficulty Hc) = [] ∧
    st3.mine Hc ts4 1 =
      some (st3.appendBlock (candidateBlock Hc st3 ts4 0),
            (candidateBlock Hc st3 ts4 0).hash Hc, 1) :=
  ⟨(C9_nonpositive_difficulty_safe Hc st3 ts4 1 (by rw [st3_difficulty]; norm_num)
      (le_refl 1)).1,
   (C9_nonpositive_difficulty_safe Hc st3 ts4 1 (by rw [st3_difficulty]; norm_num)
      (le_refl 1)).2.1⟩

/-- C10: `required_difficulty()` does not depend on the second-last
block's timestamp: since ((t1 - t2) + (t2 - t3)) / 2 = (t1 - t3) / 2, two
chain states of length ≥ 3 with the same configured target that agree on
the last block and on the third-last block's timestamp, while differing
in the second-last block's timestamp, yield equal required difficulty. -/
theorem C10_middle_timestamp_irrelevant (H : HashFn)
    (bcA bcB : Blockchain) (hA : 3 ≤ bcA.chain.length)
    (hB : 3 ≤ bcB.chain.length)
    (hlast : bcA.last_block = bcB.last_block)
    (ht3 : (bcA.chain.getD (bcA.chain.length - 3) default).timestamp
         = (bcB.chain.getD (bcB.chain.length - 3) default).timestamp)
    (htar : bcA.target_seconds_per_block = bcB.target_seconds_per_block)
    (hne : (bcA.chain.getD (bcA.chain.length - 2) default).timestamp
         ≠ (bcB.chain.getD (bcB.chain.length - 2) default).timestamp) :
    bcA.difficulty H = bcB.difficulty H := by
  have havg : bcA.avg_time_to_mine = bcB.avg_time_to_mine := by
    unfold Blockchain.avg_time_to_mine
    rw [hlast, ht3]
    ring
  unfold Blockchain.difficulty
  rw [if_neg (show ¬ bcA.chain.length < 3 by omega),
      if_neg (show ¬ bcB.chain.length < 3 by omega),
      havg, htar, hlast]

theorem C10_witness :
    (⟨[⟨0, 0, ['0'], 0⟩, ⟨1, 0, ['a'], 1⟩, ⟨2, 0, ['a'], 20⟩], 10⟩
        : Blockchain).difficulty Hc
      = (⟨[⟨0, 0, ['0'], 0⟩, ⟨1, 0, ['a'], 7⟩, ⟨2, 0, ['a'], 20⟩], 10⟩
        : Blockchain).difficulty Hc :=
  C10_middle_timestamp_irrelevant Hc _ _ (by norm_num) (by norm_num)
    rfl rfl rfl (by norm_num [Blockchain.last_block])

/-- C4: every reachable chain state satisfies: the block sequence is
non-empty; `blocks[0]` has index 0 and nonce 0; `blocks[i].index = i` for
every i; `blocks[i].previous_hash = blocks[i-1].hash` for every i ≥ 1;
and every successful `mine()` call changes the sequence only by appending
exactly one block at the end (the old sequence is an unchanged initial
segment of the new one). -/
theorem C4_chain_invariants (H : HashFn) (bc : Blockchain)
    (h : Reachable H bc) :
    bc.chain ≠ [] ∧
    (bc.chain.getD 0 default).index = 0 ∧
    (bc.chain.getD 0 default).nonce = 0 ∧
    (∀ i, i < bc.chain.length → (bc.chain.getD i default).index = i) ∧
    (∀ i, 1 ≤ i → i < bc.chain.length →
      (bc.chain.getD i default).previousHash =
        (bc.chain.getD (i - 1) default).hash H) ∧
    (∀ ts fuel bc' hsh calls, bc.mine H ts fuel = some (bc', hsh, calls) →
      ∃ b, bc'.chain = bc.chain ++ [b]) := by
  induction h with
  | genesis t0 target =>
    refine ⟨by simp [Blockchain.init], rfl, rfl, ?_, ?_, ?_⟩
    · intro i hi
      have : i = 0 := by simp [Blockchain.init] at hi; omega
      subst this
      rfl
    · intro i h1 h2
      simp [Blockchain.init] at h2
      omega
    · intro ts fuel bc' hsh calls hm
      obtain ⟨n, hbc, _, _, _⟩ := mine_eq_some H _ ts fuel bc' hsh calls hm
      exact ⟨candidateBlock H _ ts n, by rw [hbc]; rfl⟩
  | mineStep bc ts fuel bc' hsh calls hr hm ih =>
    obtain ⟨hne, h0i, h0n, hidx, hlink, _⟩ := ih
    obtain ⟨n, hbc, hhsh, hp, hcalls⟩ := mine_eq_some H bc ts fuel bc' hsh calls hm
    subst hbc
    have hchain : (bc.appendBlock (candidateBlock H bc ts n)).chain
        = bc.chain ++ [candidateBlock H bc ts n] := rfl
    have hlen1 : 1 ≤ bc.chain.length := by
      cases hc : bc.chain with
      | nil => exact absurd hc hne
      | cons a l => simp [hc]
    refine ⟨?_, ?_, ?_, ?_, ?_, ?_⟩
    · rw [hchain]
      simp
    · rw [hchain, List.getD_append _ _ _ _ (by omega)]
      exact h0i
    · rw [hchain, List.getD_append _ _ _ _ (by omega)]
      exact h0n
    · intro i hi
      rw [hchain] at hi ⊢
      rw [List.length_append, List.length_cons, List.length_nil] at hi
      by_cases hcase : i < bc.chain.length
      · rw [List.getD_append _ _ _ _ hcase]
        exact hidx i hcase
      · have : i = bc.chain.length := by omega
        subst this
        rw [List.getD_append_right _ _ _ _ (le_refl _)]
        simp [candidateBlock]
    · intro i h1 hi
      rw [hchain] at hi ⊢
      rw [List.length_append, List.length_cons, List.length_nil] at hi
      by_cases hcase : i < bc.chain.length
      · rw [List.getD_append _ _ _ _ hcase,
            List.getD_append _ _ _ _ (show i - 1 < bc.chain.length by omega)]
        exact hlink i h1 hcase
      · have : i = bc.chain.length := by omega
        subst this
        rw [List.getD_append_right _ _ _ _ (le_refl _),
            List.getD_append _ _ _ _ (show bc.chain.length - 1 < bc.chain.length by omega)]
        simp only [Nat.sub_self, List.getD_cons_zero]
        show (candidateBlock H bc ts n).previousHash = _
        unfold candidateBlock Blockchain.last_block
        rfl
    · intro ts' fuel' bc'' hsh' calls' hm'
      obtain ⟨m, hbc', _, _, _⟩ :=
        mine_eq_some H _ ts' fuel' bc'' hsh' calls' hm'
      exact ⟨candidateBlock H _ ts' m, by rw [hbc']; rfl⟩

theorem C4_witness : st3.chain ≠ [] ∧
    (st3.chain.getD 0 default).index = 0 ∧
    (st3.chain.getD 0 default).nonce = 0 :=
  ⟨(C4_chain_invariants Hc st3 st3_reachable).1,
   (C4_chain_invariants Hc st3 st3_reachable).2.1,
   (C4_chain_invariants Hc st3 st3_reachable).2.2.1⟩

end MineDemo
